import Mathlib

/-!
# Verification of the makeup-homework regrader

Shallow embedding of `src/request.py` and `src/main.py` (the PrairieLearn
makeup-deadline regrader), together with proofs about the claims of the
specification.

Conventions of the embedding:
* Python numbers (JSON points values) are modelled as `ℚ`, so that the
  float division `(a + b) / 2` is exact.
* Timestamps: an event's `date_iso8601` string is modelled structurally by
  `IsoDate` (the fixed format `YYYY-MM-DDTHH:MM:SS±HH:MM`); `render` gives
  the character codes of that string (Python compares the raw strings
  lexicographically in `logs.sort(key=...)`), while `toInstant` gives the
  instant denoted by the string (Python's `datetime.fromisoformat` followed
  by aware-datetime comparison compares instants).
* Python dicts keyed by question name are modelled by insertion-ordered
  association lists (`QMap`) with dict-assignment update (`updMap`).
* `list.sort` (Timsort, stable, key-based) is modelled by
  `List.mergeSort`, which is also a stable sort for the same boolean key
  comparison; stable sorts for a total preorder agree extensionally.
-/

/-- Structured form of a `date_iso8601` value in the fixed format
`YYYY-MM-DDTHH:MM:SS±HH:MM`. -/
structure IsoDate where
  year : ℕ
  month : ℕ
  day : ℕ
  hour : ℕ
  minute : ℕ
  second : ℕ
  tzPlus : Bool
  tzHour : ℕ
  tzMinute : ℕ
deriving DecidableEq, Repr

/-- Character code of the `k`-th decimal digit (from the right) of `n`. -/
def dig (n k : ℕ) : ℕ := 48 + n / 10 ^ k % 10

/-- The character codes of the ISO-8601 rendering
`YYYY-MM-DDTHH:MM:SS±HH:MM` of a timestamp.  `45` is `-`, `84` is `T`,
`58` is `:`, `43` is `+`. -/
def render (d : IsoDate) : List ℕ :=
  [dig d.year 3, dig d.year 2, dig d.year 1, dig d.year 0, 45,
   dig d.month 1, dig d.month 0, 45,
   dig d.day 1, dig d.day 0, 84,
   dig d.hour 1, dig d.hour 0, 58,
   dig d.minute 1, dig d.minute 0, 58,
   dig d.second 1, dig d.second 0,
   if d.tzPlus then 43 else 45,
   dig d.tzHour 1, dig d.tzHour 0, 58,
   dig d.tzMinute 1, dig d.tzMinute 0]

/-- Lexicographic comparison of character-code lists: Python's `<=` on the
underlying strings. -/
def strLe : List ℕ → List ℕ → Bool
  | [], _ => true
  | _ :: _, [] => false
  | a :: as, b :: bs => if a < b then true else if b < a then false else strLe as bs

/-- Day number of a proleptic-Gregorian civil date (days since 0000-03-01),
for years ≥ 1; the algorithm used by calendar libraries and equivalent (up
to a constant shift) to Python's `date.toordinal`. -/
def daysFromCivil (y m d : ℕ) : ℕ :=
  let y' := if m ≤ 2 then y - 1 else y
  let era := y' / 400
  let yoe := y' - era * 400
  let mp := (m + 9) % 12
  let doy := (153 * mp + 2) / 5 + d - 1
  let doe := yoe * 365 + yoe / 4 - yoe / 100 + doy
  era * 146097 + doe

/-- The instant denoted by an ISO timestamp, in seconds on a fixed linear
time scale (UTC seconds since 0000-03-01): field seconds minus the UTC
offset.  Python's comparison of aware `datetime` values compares exactly
these instants. -/
def toInstant (t : IsoDate) : ℤ :=
  (daysFromCivil t.year t.month t.day : ℤ) * 86400
    + t.hour * 3600 + t.minute * 60 + t.second
    - (if t.tzPlus then (1 : ℤ) else -1) * (t.tzHour * 3600 + t.tzMinute * 60)

/-- The kind-specific content of a log event: `event["event_name"]`
together with the payload fields the scanner reads (`data.points`,
`qid`, `data.manual_points`).  Kinds the scanner skips are `other`. -/
inductive EventKind where
  | scoreAssessment (points : ℚ)
  | manualGradingResult (qid : ℕ) (manual_points : ℚ)
  | other
deriving DecidableEq, Repr

/-- One entry of the instance log. -/
structure Event where
  kind : EventKind
  date_iso8601 : IsoDate
deriving DecidableEq, Repr

/-- One entry of the `instance_questions` listing, with the fields
`scan_hw_log` reads. -/
structure Question where
  question_name : ℕ
  assessment_question_max_points : ℚ
  assessment_question_max_manual_points : ℚ
deriving DecidableEq, Repr

/-- Python dict assignment `m[k] = v` on an insertion-ordered association
list: replace in place if the key is present, else append at the end. -/
def updMap {β : Type} (m : List (ℕ × β)) (k : ℕ) (v : β) : List (ℕ × β) :=
  if m.any (fun p => p.1 == k) then
    m.map (fun p => if p.1 == k then (k, v) else p)
  else
    m ++ [(k, v)]

/-- Dict lookup `m[k]` (as an option). -/
def lookupMap {β : Type} (m : List (ℕ × β)) (k : ℕ) : Option β :=
  (m.find? (fun p => p.1 == k)).map Prod.snd

/-- The keys of the dict, in insertion order. -/
def keysMap {β : Type} (m : List (ℕ × β)) : List ℕ := m.map Prod.fst

/-- Insertion-ordered association list modelling a Python dict
`question name → points`. -/
abbrev QMap := List (ℕ × ℚ)

/-- `sum(m.values())`. -/
def sumMap (m : QMap) : ℚ := (m.map Prod.snd).sum

/-- `{q: 0 for q in qs}`. -/
def initMap (qs : List ℕ) : QMap := qs.foldl (fun m q => updMap m q 0) []

/-- The first pass of `scan_hw_log` (request.py lines 99–102): fold over
the (sorted) log recording, for each question, the manual points of its
latest `Manual grading results` event. -/
def lastManualPass (init : QMap) (logs : List Event) : QMap :=
  logs.foldl
    (fun m e =>
      match e.kind with
      | .manualGradingResult q p => updMap m q p
      | _ => m)
    init

/-- The mutable state of the replay loop: `cur_total_score` and
`cur_manual_score` (request.py lines 104–105). -/
structure ScanState where
  cur_total_score : ℚ
  cur_manual_score : QMap
deriving DecidableEq, Repr

/-- The window-tracking state of the replay loop (request.py
lines 107–110). -/
structure WinState where
  orig_score : Option ℚ
  orig_date : Option ℤ
  makeup_score : Option ℚ
  makeup_date : Option ℤ
deriving DecidableEq, Repr

/-- `orig_score is None or total_score > orig_score`. -/
def betterScore (score : Option ℚ) (v : ℚ) : Bool :=
  match score with
  | none => true
  | some s => decide (s < v)

/-- The two window updates performed for one qualifying event with
candidate value `v` at instant `t` (request.py lines 123–130). -/
def updWindows (due makeup : ℤ) (w : WinState) (t : ℤ) (v : ℚ) : WinState :=
  let w1 :=
    if decide (t ≤ due) && betterScore w.orig_score v then
      { w with orig_score := some v, orig_date := some t }
    else w
  if decide (t ≤ makeup) && betterScore w1.makeup_score v then
    { w1 with makeup_score := some v, makeup_date := some t }
  else w1

/-- The replay loop of `scan_hw_log` (request.py lines 112–130): walk the
sorted log, updating the running state on `Score assessment` and
`Manual grading results` events, and feeding each event's normalized total
`cur_total_score - sum(cur_manual_score) + sum(last_manual_score)`
to the window updates. -/
def scanLoop (lastM : QMap) (due makeup : ℤ) :
    ScanState → WinState → List Event → WinState
  | _, w, [] => w
  | st, w, e :: rest =>
    match e.kind with
    | .scoreAssessment p =>
      let st' : ScanState := { st with cur_total_score := p }
      let v := st'.cur_total_score - sumMap st'.cur_manual_score + sumMap lastM
      scanLoop lastM due makeup st'
        (updWindows due makeup w (toInstant e.date_iso8601) v) rest
    | .manualGradingResult q mp =>
      let st' : ScanState := { st with cur_manual_score := updMap st.cur_manual_score q mp }
      let v := st'.cur_total_score - sumMap st'.cur_manual_score + sumMap lastM
      scanLoop lastM due makeup st'
        (updWindows due makeup w (toInstant e.date_iso8601) v) rest
    | .other => scanLoop lastM due makeup st w rest

/-- The value `scan_hw_log` returns. -/
structure ScanResult where
  orig_score : Option ℚ
  orig_date : Option ℤ
  makeup_score : Option ℚ
  makeup_date : Option ℤ
  total_points : ℚ
deriving DecidableEq, Repr

/-- The sort key used at request.py line 97: the raw `date_iso8601`
string. -/
def dateKeyLe (a b : Event) : Bool := strLe (render a.date_iso8601) (render b.date_iso8601)

/-- The sorted log: `logs.sort(key=lambda x: x["date_iso8601"])`.
Python's sort is the stable sort by this key; `List.mergeSort` with the
same key comparison is extensionally that sort. -/
def sortLogs (logs : List Event) : List Event := logs.mergeSort dateKeyLe

/-- `manual_questions` (request.py line 92): the names of the questions
with positive max manual points. -/
def manualNames (questions : List Question) : List ℕ :=
  (questions.filter (fun q => decide (0 < q.assessment_question_max_manual_points))).map
    (·.question_name)

/-- `scan_hw_log` (request.py lines 84–132), with the two network reads
(`instance_questions`, `log`) abstracted into the arguments `questions`
and `logs`, and the two confirmed cutoffs passed as instants. -/
def scan_hw_log (questions : List Question) (logs : List Event) (due makeup : ℤ) :
    ScanResult :=
  let total_points := (questions.map (·.assessment_question_max_points)).sum
  let manual_questions := manualNames questions
  let sorted := sortLogs logs
  let last_manual_score := lastManualPass (initMap manual_questions) sorted
  let w := scanLoop last_manual_score due makeup
    ⟨0, initMap manual_questions⟩ ⟨none, none, none, none⟩ sorted
  ⟨w.orig_score, w.orig_date, w.makeup_score, w.makeup_date, total_points⟩

/-- The `(time, normalized total)` pairs the replay loop feeds to the
window updates, in replay order (one per `Score assessment` /
`Manual grading results` event). -/
def replayCands (lastM : QMap) : ScanState → List Event → List (ℤ × ℚ)
  | _, [] => []
  | st, e :: rest =>
    match e.kind with
    | .scoreAssessment p =>
      let st' : ScanState := { st with cur_total_score := p }
      (toInstant e.date_iso8601,
        st'.cur_total_score - sumMap st'.cur_manual_score + sumMap lastM)
        :: replayCands lastM st' rest
    | .manualGradingResult q mp =>
      let st' : ScanState := { st with cur_manual_score := updMap st.cur_manual_score q mp }
      (toInstant e.date_iso8601,
        st'.cur_total_score - sumMap st'.cur_manual_score + sumMap lastM)
        :: replayCands lastM st' rest
    | .other => replayCands lastM st rest

/-- Fold of the two window updates over a candidate sequence. -/
def windowsFold (due makeup : ℤ) : WinState → List (ℤ × ℚ) → WinState
  | w, [] => w
  | w, c :: cs => windowsFold due makeup (updWindows due makeup w c.1 c.2) cs

/-- The candidate sequence of one scan: the normalized totals of the
scoring events of the sorted log, with their instants. -/
def scanCands (questions : List Question) (logs : List Event) : List (ℤ × ℚ) :=
  let sorted := sortLogs logs
  replayCands (lastManualPass (initMap (manualNames questions)) sorted)
    ⟨0, initMap (manualNames questions)⟩ sorted

/-- Whether the replay scores this event (`Score assessment` or
`Manual grading results`; every other kind is skipped). -/
def isScoring (e : Event) : Bool :=
  match e.kind with
  | .scoreAssessment _ => true
  | .manualGradingResult _ _ => true
  | .other => false

/-- The candidates whose instant lies inside the window (`<=` cutoff). -/
def windowCands (cutoff : ℤ) (cands : List (ℤ × ℚ)) : List (ℤ × ℚ) :=
  cands.filter (fun c => decide (c.1 ≤ cutoff))

/-- The maximum normalized total among the candidates inside the window
(`none` when the window holds no candidate). -/
def bestScore (cutoff : ℤ) (cands : List (ℤ × ℚ)) : Option ℚ :=
  ((windowCands cutoff cands).map Prod.snd).max?

/-- Fold a running optional maximum over a list of values. -/
def optMax (o : Option ℚ) (l : List ℚ) : Option ℚ :=
  l.foldl (fun a v => some (match a with | none => v | some s => max s v)) o

/-- The manual points of the `Manual grading results` events for question
`q`, in log order. -/
def mgrPointsFor (q : ℕ) (events : List Event) : List ℚ :=
  events.filterMap (fun e =>
    match e.kind with
    | .manualGradingResult q' p => if q' = q then some p else none
    | _ => none)

/-- The question ids of the `Manual grading results` events, in log
order. -/
def mgrQids (events : List Event) : List ℕ :=
  events.filterMap (fun e =>
    match e.kind with
    | .manualGradingResult q _ => some q
    | _ => none)

/-- The points of the latest `Score assessment` event of the log (0 if
none): the spec's `current_total` after a prefix of the replay. -/
def lastScorePoints (events : List Event) : ℚ :=
  (events.filterMap (fun e =>
    match e.kind with
    | .scoreAssessment p => some p
    | _ => none)).getLast?.getD 0

/-- The manual points most recently recorded for question `q` in the
given events (0 if none): the spec's per-question manual score after a
prefix of the replay. -/
def curManualVal (events : List Event) (q : ℕ) : ℚ :=
  (mgrPointsFor q events).getLast?.getD 0

/-- The questions tracked by the manual-score dict after the given
events: the manually-graded questions plus every question that received a
`Manual grading results` event. -/
def manualKeys (mq : List ℕ) (events : List Event) : Finset ℕ :=
  (mq ++ mgrQids events).toFinset

/-- The spec's `sum(current_manual_score)` after the given events. -/
def manualSumSpec (mq : List ℕ) (events : List Event) : ℚ :=
  (manualKeys mq events).sum (curManualVal events)

/-- The spec's normalized total at the last event of `prefixEvents`:
`current_total − sum(current_manual_score) + sum(last_manual_score)`,
with the current values read from the prefix processed so far and the
last values from the whole log. -/
def normTotalSpec (mq : List ℕ) (whole prefixEvents : List Event) : ℚ :=
  lastScorePoints prefixEvents - manualSumSpec mq prefixEvents + manualSumSpec mq whole

/-- The candidate sequence as the spec describes it, carrying the prefix
processed so far: each scoring event contributes its instant and its
normalized total, computed from prefix-based current values. -/
def candidatesSpecAux (mq : List ℕ) (whole : List Event) :
    List Event → List Event → List (ℤ × ℚ)
  | _, [] => []
  | p, e :: rest =>
    if isScoring e then
      (toInstant e.date_iso8601, normTotalSpec mq whole (p ++ [e]))
        :: candidatesSpecAux mq whole (p ++ [e]) rest
    else candidatesSpecAux mq whole (p ++ [e]) rest

/-- The spec-side candidate sequence of a sorted log. -/
def candidatesSpec (mq : List ℕ) (events : List Event) : List (ℤ × ℚ) :=
  candidatesSpecAux mq events [] events

/-- The spec's concrete scenario: instant `t1` (on time). -/
def t1 : IsoDate := ⟨2024, 1, 1, 10, 0, 0, true, 0, 0⟩

/-- The spec's concrete scenario: instant `t2` (after the due date, within
the makeup window). -/
def t2 : IsoDate := ⟨2024, 1, 9, 10, 0, 0, true, 0, 0⟩

/-- The scenario's single, manually-graded question `q1`. -/
def hw1 : Question := ⟨1, 100, 10⟩

/-- `ScoreAssessment(100 pts)` at `t1`. -/
def sa1 : Event := ⟨.scoreAssessment 100, t1⟩

/-- `ManualGradingResult(q1, 5 pts)` at `t1`. -/
def mg5 : Event := ⟨.manualGradingResult 1 5, t1⟩

/-- `ManualGradingResult(q1, 8 pts)` at `t2`. -/
def mg8 : Event := ⟨.manualGradingResult 1 8, t2⟩

/-- Python truthiness of a number-or-None: `None` and `0` are falsy. -/
def truthy : Option ℚ → Bool
  | none => false
  | some q => decide (q ≠ 0)

/-- The final-points blend of `fetch_hw_grade` (request.py lines 167–174):
`if orig_score and makeup_score: (orig+makeup)/2 elif orig_score: orig
elif makeup_score: makeup/2 else: 0`. -/
def finalize (orig_score makeup_score : Option ℚ) : ℚ :=
  if truthy orig_score && truthy makeup_score then
    (orig_score.getD 0 + makeup_score.getD 0) / 2
  else if truthy orig_score then orig_score.getD 0
  else if truthy makeup_score then makeup_score.getD 0 / 2
  else 0

/-- One row of the `results` dict built by `fetch_hw_grade`
(request.py lines 176–184). -/
structure Row where
  uid : ℕ
  points : ℚ
  orig_points : Option ℚ
  orig_date : Option ℤ
  makeup_points : Option ℚ
  makeup_date : Option ℤ
  total_points : ℚ
deriving DecidableEq, Repr

/-- Build one student's row from their scan result (request.py
lines 163–184). -/
def mkRow (uid : ℕ) (r : ScanResult) : Row :=
  ⟨uid, finalize r.orig_score r.makeup_score,
   r.orig_score, r.orig_date, r.makeup_score, r.makeup_date, r.total_points⟩

/-- The state of the `as_completed` collection loop: the `results` dict
plus the error log written by `logger.error` on a failed task. -/
structure BatchState where
  results : List (ℕ × Row)
  errorLog : List ℕ
deriving DecidableEq, Repr

/-- One iteration of the collection loop (request.py lines 158–184): a
completed future either raised (the exception is caught, the uid logged,
the student skipped via `continue`) or produced a scan result, which is
finalized and stored under the student's uid. -/
def collectStep (b : BatchState) (o : ℕ × Except Unit ScanResult) : BatchState :=
  match o.2 with
  | .error _ => { b with errorLog := b.errorLog ++ [o.1] }
  | .ok r => { b with results := updMap b.results o.1 (mkRow o.1 r) }

/-- The whole collection phase of `fetch_hw_grade`: fold `collectStep`
over the completed tasks in completion order.  `outcomes` pairs each
student's uid with the outcome of their `scan_hw_log` task (a value, or
the exception it raised). -/
def collectResults (outcomes : List (ℕ × Except Unit ScanResult)) : BatchState :=
  outcomes.foldl collectStep ⟨[], []⟩

/-- A CSV cell as serialized by `csv.writer` from a row value. -/
inductive Cell where
  | str (s : String)
  | num (q : ℚ)
  | onum (o : Option ℚ)
  | odate (o : Option ℤ)
  | nat (n : ℕ)
deriving DecidableEq, Repr

/-- The header line: the keys of a results row. -/
def csvHeader : List Cell :=
  [.str "uid", .str "points", .str "orig_points", .str "orig_date",
   .str "makeup_points", .str "makeup_date", .str "total_points"]

/-- The cells of one data line: the values of a results row. -/
def rowCells (r : Row) : List Cell :=
  [.nat r.uid, .num r.points, .onum r.orig_points, .odate r.orig_date,
   .onum r.makeup_points, .odate r.makeup_date, .num r.total_points]

/-- The observable outcome of `write_to_csv`: whether the output file was
created (truncated) on disk, the lines written to it, and whether the call
raised. -/
structure WriteOutcome where
  fileCreated : Bool
  lines : List (List Cell)
  raised : Bool
deriving DecidableEq, Repr

/-- `write_to_csv` (main.py lines 9–19).  `with open(filename, "w")`
creates/truncates the file unconditionally; then
`cols = next(iter(results.values())).keys()` raises `StopIteration` on an
empty dict before anything is written; otherwise the header line and one
line per student are written. -/
def write_to_csv (results : List (ℕ × Row)) : WriteOutcome :=
  if results.isEmpty then ⟨true, [], true⟩
  else ⟨true, csvHeader :: results.map (fun p => rowCells p.2), false⟩

/-- Outcome of `api_request`: the parsed body on status 200, or one of the
two fatal errors it raises. -/
inductive ApiOutcome (α : Type) where
  | ok (body : α)
  | retryExhausted
  | invalidStatus (code : ℕ)
deriving DecidableEq, Repr

/-- The retry loop of `api_request` (request.py lines 36–52), started at
attempt `i` with `retry_cnt` retries already consumed.  `status j` and
`body j` give the HTTP status and parsed body of the `j`-th GET.  Returns
the outcome together with the number of GET requests issued from this
point and the total seconds slept (`time.sleep(10)` per retry). -/
def apiLoop {α : Type} (status : ℕ → ℕ) (body : ℕ → α) (retry_max : ℕ)
    (i retry_cnt : ℕ) : ApiOutcome α × ℕ × ℕ :=
  if status i = 200 then
    (.ok (body i), 1, 0)
  else if status i = 502 then
    if retry_cnt + 1 ≥ retry_max then
      (.retryExhausted, 1, 0)
    else
      let r := apiLoop status body retry_max (i + 1) (retry_cnt + 1)
      (r.1, r.2.1 + 1, r.2.2 + 10)
  else
    (.invalidStatus (status i), 1, 0)
termination_by retry_max - retry_cnt
decreasing_by simp_wf; omega

/-- `api_request` (request.py lines 33–58): run the retry loop from the
first attempt with `retry_cnt = 0`. -/
def api_request {α : Type} (status : ℕ → ℕ) (body : ℕ → α) (retry_max : ℕ := 5) :
    ApiOutcome α × ℕ × ℕ :=
  apiLoop status body retry_max 0 0

/-- The successful scan results recorded for uid `v` among the completed
tasks, in completion order. -/
def okResultsFor (v : ℕ) (outcomes : List (ℕ × Except Unit ScanResult)) : List ScanResult :=
  outcomes.filterMap (fun p =>
    match p.2 with
    | .ok r => if p.1 = v then some r else none
    | .error _ => none)

/-- The last successful scan result recorded for uid `v`. -/
def lastOk (v : ℕ) (outcomes : List (ℕ × Except Unit ScanResult)) : Option ScanResult :=
  (okResultsFor v outcomes).getLast?
/-- A sample scan result, used for concrete witnesses. -/
def sampleScan : ScanResult := ⟨none, none, none, none, 0⟩
/-- An event at 20:00:00 UTC rendered with offset +00:00. -/
def evUtc : Event := ⟨.other, ⟨2024, 1, 1, 20, 0, 0, true, 0, 0⟩⟩

/-- An event one second later in real time (20:00:01 UTC) but rendered as
12:00:01-08:00, whose text sorts before `evUtc`'s. -/
def evMinus8 : Event := ⟨.other, ⟨2024, 1, 1, 12, 0, 1, false, 8, 0⟩⟩

/-- An event at the same instant as `evUtc` (20:00:00 UTC) but rendered as
12:00:00-08:00. -/
def evMinus8Same : Event := ⟨.other, ⟨2024, 1, 1, 12, 0, 0, false, 8, 0⟩⟩

/-- The blend rule exactly as the specification's §4.5 sentence states it
(treating "present" as "not absent"), to be compared with the code's
`finalize`. -/
def canonicalBlend (orig_score makeup_score : Option ℚ) : ℚ :=
  match orig_score, makeup_score with
  | some o, some m => (o + m) / 2
  | some o, none => o
  | none, some m => m
  | none, none => 0

/-- C1 (counterexample): with no original score and a makeup score of 10,
the code's finalizer awards 5 (it halves a makeup-only score), while the
claimed canonical rule awards the full 10. -/
theorem finalize_makeup_only_halved :
    finalize none (some 10) = 5 ∧ canonicalBlend none (some 10) = 10 ∧ (5 : ℚ) ≠ 10 := by
  refine ⟨?_, rfl, by norm_num⟩
  norm_num [finalize, truthy]

/-- C1 (amended): the code's blend rule, with presence read as Python
truthiness (a present score of 0 counts as absent): if both scores are
truthy, final is their average; if only the original score is truthy,
final is the original score; if only the makeup score is truthy, final is
half the makeup score; otherwise final is 0. -/
theorem finalize_blend_rule (o m : ℚ) (ho : o ≠ 0) (hm : m ≠ 0) :
    finalize (some o) (some m) = (o + m) / 2
  ∧ finalize (some o) none = o
  ∧ finalize (some o) (some 0) = o
  ∧ finalize none (some m) = m / 2
  ∧ finalize (some 0) (some m) = m / 2
  ∧ finalize none none = 0
  ∧ finalize none (some 0) = 0
  ∧ finalize (some 0) none = 0
  ∧ finalize (some 0) (some 0) = 0 := by
  simp [finalize, truthy, ho, hm]

/-- Witness for C1's amended theorem at the concrete scores 3 and 7. -/
theorem finalize_blend_rule_witness :
    finalize (some 3) (some 7) = 5 ∧ finalize none (some 7) = 7 / 2 := by
  have h := finalize_blend_rule 3 7 (by norm_num) (by norm_num)
  refine ⟨?_, h.2.2.2.1⟩
  rw [h.1]; norm_num

/-- C10 (counterexample): on an empty results mapping `write_to_csv`
raises before writing any line, but the output file has already been
created (truncated) by the `open(..., "w")` call, so an empty output file
is in fact produced on disk. -/
theorem write_to_csv_empty_creates_file :
    (write_to_csv []).raised = true ∧ (write_to_csv []).lines = []
  ∧ (write_to_csv []).fileCreated = true :=
  ⟨rfl, rfl, rfl⟩

/-- C10 (amended): when the results mapping is empty, `write_to_csv`
raises before writing a header or any row (though the file itself is
still created empty), and the call completes without raising exactly when
at least one student record was produced. -/
theorem write_to_csv_empty_raises (results : List (ℕ × Row)) :
    ((write_to_csv results).raised = true ↔ results = [])
  ∧ (results = [] → (write_to_csv results).lines = [])
  ∧ (write_to_csv results).fileCreated = true := by
  cases results <;> simp [write_to_csv]

/-- Witness for C10's amended theorem at the empty mapping. -/
theorem write_to_csv_empty_raises_witness :
    (write_to_csv []).raised = true ∧ (write_to_csv []).lines = [] := by
  have h := write_to_csv_empty_raises []
  exact ⟨h.1.mpr rfl, h.2.1 rfl⟩

theorem lookupMap_nil {β : Type} (q : ℕ) : lookupMap ([] : List (ℕ × β)) q = none := rfl

theorem lookupMap_cons {β : Type} (a : ℕ × β) (m : List (ℕ × β)) (q : ℕ) :
    lookupMap (a :: m) q = if a.1 = q then some a.2 else lookupMap m q := by
  by_cases h : a.1 = q <;> simp [lookupMap, List.find?_cons, h]

theorem keysMap_nil {β : Type} : keysMap ([] : List (ℕ × β)) = [] := rfl

theorem keysMap_cons {β : Type} (a : ℕ × β) (m : List (ℕ × β)) :
    keysMap (a :: m) = a.1 :: keysMap m := rfl

theorem anyKey_iff_mem {β : Type} (m : List (ℕ × β)) (k : ℕ) :
    m.any (fun p => p.1 == k) = true ↔ k ∈ keysMap m := by
  induction m with
  | nil => simp [keysMap_nil]
  | cons a m ih =>
    rw [List.any_cons, keysMap_cons]
    by_cases h : a.1 = k
    · simp [h]
    · rw [show (a.1 == k) = false by simpa using h]
      simp only [Bool.false_or, ih, List.mem_cons]
      exact ⟨Or.inr, fun hc => hc.resolve_left (fun he => h he.symm)⟩

theorem lookupMap_eq_none_of_not_mem {β : Type} {m : List (ℕ × β)} {k : ℕ}
    (h : k ∉ keysMap m) : lookupMap m k = none := by
  induction m with
  | nil => rfl
  | cons a m ih =>
    rw [keysMap_cons, List.mem_cons] at h
    push_neg at h
    rw [lookupMap_cons, if_neg (fun hc => h.1 hc.symm), ih h.2]

theorem lookupMap_isSome_of_mem {β : Type} {m : List (ℕ × β)} {k : ℕ}
    (h : k ∈ keysMap m) : (lookupMap m k).isSome := by
  induction m with
  | nil => simp [keysMap_nil] at h
  | cons a m ih =>
    rw [lookupMap_cons]
    by_cases ha : a.1 = k
    · simp [ha]
    · rw [if_neg ha]
      rw [keysMap_cons, List.mem_cons] at h
      exact ih (h.resolve_left (fun hc => ha hc.symm))

theorem lookupMap_replaceKey {β : Type} (k : ℕ) (v : β) (m : List (ℕ × β)) (q : ℕ) :
    lookupMap (m.map (fun p => if p.1 == k then (k, v) else p)) q =
      if q = k then (lookupMap m k).map (fun _ => v) else lookupMap m q := by
  induction m with
  | nil => by_cases h : q = k <;> simp [lookupMap, h]
  | cons a m ih =>
    rw [List.map_cons]
    by_cases hak : a.1 = k
    · rw [if_pos (show (a.1 == k) = true by simpa using hak), lookupMap_cons]
      by_cases hqk : q = k
      · rw [if_pos hqk.symm, if_pos hqk, lookupMap_cons, if_pos (hqk ▸ hak)]
        rfl
      · rw [if_neg (fun hc : k = q => hqk hc.symm), ih, if_neg hqk, if_neg hqk,
          lookupMap_cons, if_neg (fun hc : a.1 = q => hqk ((hak ▸ hc : (k : ℕ) = q)).symm)]
    · rw [if_neg (show ¬ (a.1 == k) = true by simpa using hak), lookupMap_cons]
      by_cases hqk : q = k
      · rw [if_neg (fun hc : a.1 = q => hak (hqk ▸ hc)), ih, if_pos hqk, if_pos hqk,
          lookupMap_cons, if_neg hak]
      · rw [ih, if_neg hqk, if_neg hqk, lookupMap_cons]

theorem lookupMap_append_single {β : Type} (m : List (ℕ × β)) (k : ℕ) (v : β) (q : ℕ) :
    lookupMap (m ++ [(k, v)]) q =
      ((lookupMap m q).or (if q = k then some v else none)) := by
  induction m with
  | nil =>
    rw [List.nil_append, lookupMap_cons, lookupMap_nil]
    by_cases h : q = k
    · rw [if_pos h.symm, if_pos h]; rfl
    · rw [if_neg (fun hc : k = q => h hc.symm), if_neg h]; rfl
  | cons a m ih =>
    rw [List.cons_append, lookupMap_cons, lookupMap_cons, ih]
    by_cases h : a.1 = q <;> simp [h]

/-- Dict assignment followed by lookup: the updated key reads the new
value, every other key is untouched. -/
theorem lookupMap_updMap {β : Type} (m : List (ℕ × β)) (k : ℕ) (v : β) (q : ℕ) :
    lookupMap (updMap m k v) q = if q = k then some v else lookupMap m q := by
  unfold updMap
  by_cases hmem : m.any (fun p => p.1 == k) = true
  · rw [if_pos hmem, lookupMap_replaceKey]
    by_cases hqk : q = k
    · rw [if_pos hqk, if_pos hqk]
      obtain ⟨w, hw⟩ := Option.isSome_iff_exists.mp
        (lookupMap_isSome_of_mem ((anyKey_iff_mem m k).mp hmem))
      rw [hw]
      rfl
    · rw [if_neg hqk, if_neg hqk]
  · rw [if_neg hmem, lookupMap_append_single]
    by_cases hqk : q = k
    · subst hqk
      rw [lookupMap_eq_none_of_not_mem (fun hc => hmem ((anyKey_iff_mem m q).mpr hc))]
      simp
    · simp [hqk]

/-- Dict assignment and the key list: an existing key leaves the keys
unchanged, a new key is appended. -/
theorem keysMap_updMap {β : Type} (m : List (ℕ × β)) (k : ℕ) (v : β) :
    keysMap (updMap m k v) =
      if k ∈ keysMap m then keysMap m else keysMap m ++ [k] := by
  unfold updMap
  by_cases hmem : m.any (fun p => p.1 == k) = true
  · rw [if_pos hmem, if_pos ((anyKey_iff_mem m k).mp hmem)]
    unfold keysMap
    rw [List.map_map]
    refine List.map_congr_left (fun p _ => ?_)
    by_cases h : p.1 = k <;> simp [h]
  · rw [if_neg hmem, if_neg (fun hc => hmem ((anyKey_iff_mem m k).mpr hc))]
    simp [keysMap]

/-- Dict assignment preserves distinctness of keys. -/
theorem nodup_keysMap_updMap {β : Type} {m : List (ℕ × β)} (k : ℕ) (v : β)
    (h : (keysMap m).Nodup) : (keysMap (updMap m k v)).Nodup := by
  rw [keysMap_updMap]
  by_cases hmem : k ∈ keysMap m
  · rwa [if_pos hmem]
  · rw [if_neg hmem]
    simpa [List.nodup_append] using ⟨h, hmem⟩

/-- With distinct keys, the sum of a dict's values is the sum of the
looked-up value over its key list. -/
theorem sumMap_eq_keys_sum :
    ∀ (m : QMap), (keysMap m).Nodup →
      sumMap m = ((keysMap m).map (fun q => (lookupMap m q).getD 0)).sum
  | [], _ => rfl
  | a :: m, h => by
    have hnd : (keysMap m).Nodup := (List.nodup_cons.mp (by simpa [keysMap] using h)).2
    have hna : a.1 ∉ keysMap m := (List.nodup_cons.mp (by simpa [keysMap] using h)).1
    have ih := sumMap_eq_keys_sum m hnd
    simp only [sumMap, keysMap, List.map_cons, List.sum_cons] at ih ⊢
    rw [lookupMap_cons, if_pos rfl]
    simp only [Option.getD_some]
    refine congrArg₂ (· + ·) rfl ?_
    rw [ih]
    refine congrArg List.sum (List.map_congr_left (fun q hq => ?_))
    rw [lookupMap_cons, if_neg (fun hc : a.1 = q => hna (by rw [hc]; exact hq))]

theorem mem_keysMap_updMap {β : Type} (m : List (ℕ × β)) (k : ℕ) (v : β) (q : ℕ) :
    q ∈ keysMap (updMap m k v) ↔ q ∈ keysMap m ∨ q = k := by
  rw [keysMap_updMap]
  by_cases hmem : k ∈ keysMap m
  · rw [if_pos hmem]
    exact ⟨Or.inl, fun hc => hc.elim id (fun he => he ▸ hmem)⟩
  · rw [if_neg hmem]
    simp

theorem getLast?_cons_eq_or {α : Type} (a : α) (l : List α) :
    (a :: l).getLast? = l.getLast?.or (some a) := by
  cases l with
  | nil => rfl
  | cons b t =>
    rw [List.getLast?_cons_cons]
    obtain ⟨x, hx⟩ := Option.isSome_iff_exists.mp
      (List.getLast?_isSome.mpr (List.cons_ne_nil b t))
    rw [hx]
    rfl

theorem map_or {α β : Type} (f : α → β) (a b : Option α) :
    (a.or b).map f = (a.map f).or (b.map f) := by
  cases a <;> rfl

/-- What the collection loop stores under uid `v`: the row built from the
last successful result for `v`, else whatever the initial state held. -/
theorem lookup_collect_fold (v : ℕ) :
    ∀ (l : List (ℕ × Except Unit ScanResult)) (b : BatchState),
      lookupMap (l.foldl collectStep b).results v =
        ((lastOk v l).map (mkRow v)).or (lookupMap b.results v)
  | [], b => by simp [lastOk, okResultsFor]
  | p :: l, b => by
    rw [List.foldl_cons, lookup_collect_fold v l]
    match hp : p.2 with
    | .error e =>
      have hstep : (collectStep b p).results = b.results := by
        simp [collectStep, hp]
      have hok : lastOk v (p :: l) = lastOk v l := by
        simp [lastOk, okResultsFor, List.filterMap_cons, hp]
      rw [hstep, hok]
    | .ok r =>
      by_cases hv : p.1 = v
      · have hstep : (collectStep b p).results = updMap b.results v (mkRow v r) := by
          simp [collectStep, hp, hv]
        have hok : lastOk v (p :: l) = (lastOk v l).or (some r) := by
          rw [lastOk, lastOk,
            show okResultsFor v (p :: l) = r :: okResultsFor v l by
              simp [okResultsFor, List.filterMap_cons, hp, hv]]
          exact getLast?_cons_eq_or r _
        rw [hstep, lookupMap_updMap, if_pos rfl, hok, map_or, Option.or_assoc]
        rfl
      · have hstep : (collectStep b p).results = updMap b.results p.1 (mkRow p.1 r) := by
          simp [collectStep, hp]
        have hok : lastOk v (p :: l) = lastOk v l := by
          simp [lastOk, okResultsFor, List.filterMap_cons, hp, hv]
        rw [hstep, lookupMap_updMap, if_neg (fun hc => hv hc.symm), hok]

/-- A uid is a key of the collected results exactly when some completed
task for it succeeded (or it was a key already). -/
theorem mem_keys_collect_fold (v : ℕ) :
    ∀ (l : List (ℕ × Except Unit ScanResult)) (b : BatchState),
      v ∈ keysMap (l.foldl collectStep b).results ↔
        v ∈ keysMap b.results ∨ ∃ r, (v, Except.ok r) ∈ l
  | [], b => by simp
  | p :: l, b => by
    rw [List.foldl_cons, mem_keys_collect_fold v l]
    match hp : p.2 with
    | .error e =>
      have hstep : (collectStep b p).results = b.results := by
        simp [collectStep, hp]
      rw [hstep]
      constructor
      · rintro (h | ⟨r, hr⟩)
        · exact Or.inl h
        · exact Or.inr ⟨r, List.mem_cons_of_mem _ hr⟩
      · rintro (h | ⟨r, hr⟩)
        · exact Or.inl h
        · rcases List.mem_cons.mp hr with he | hm
          · exact absurd (congrArg Prod.snd he.symm).symm (by simp [hp])
          · exact Or.inr ⟨r, hm⟩
    | .ok r0 =>
      have hstep : (collectStep b p).results = updMap b.results p.1 (mkRow p.1 r0) := by
        simp [collectStep, hp]
      rw [hstep, mem_keysMap_updMap]
      constructor
      · rintro ((h | h) | ⟨r, hr⟩)
        · exact Or.inl h
        · refine Or.inr ⟨r0, ?_⟩
          have : p = (v, Except.ok r0) := by
            cases p with
            | mk a b2 => simp at hp h ⊢; exact ⟨h.symm, hp⟩
          rw [← this]
          exact List.mem_cons_self p (p :: l).tail
        · exact Or.inr ⟨r, List.mem_cons_of_mem _ hr⟩
      · rintro (h | ⟨r, hr⟩)
        · exact Or.inl (Or.inl h)
        · rcases List.mem_cons.mp hr with he | hm
          · exact Or.inl (Or.inr (congrArg Prod.fst he))
          · exact Or.inr ⟨r, hm⟩

/-- The error log collects exactly the uids of failed tasks, in order. -/
theorem errorLog_collect_fold :
    ∀ (l : List (ℕ × Except Unit ScanResult)) (b : BatchState),
      (l.foldl collectStep b).errorLog =
        b.errorLog ++ l.filterMap (fun p =>
          match p.2 with
          | .error _ => some p.1
          | .ok _ => none)
  | [], b => by simp
  | p :: l, b => by
    rw [List.foldl_cons, errorLog_collect_fold l]
    match hp : p.2 with
    | .error e =>
      have hstep : (collectStep b p).errorLog = b.errorLog ++ [p.1] := by
        simp [collectStep, hp]
      rw [hstep, List.filterMap_cons, hp, List.append_assoc]
      rfl
    | .ok r =>
      have hstep : (collectStep b p).errorLog = b.errorLog := by
        simp [collectStep, hp]
      rw [hstep, List.filterMap_cons, hp]

theorem okResultsFor_cons (u : ℕ) (p : ℕ × Except Unit ScanResult)
    (l : List (ℕ × Except Unit ScanResult)) :
    okResultsFor u (p :: l) =
      (match p.2 with
       | .ok r => if p.1 = u then [r] else []
       | .error _ => []) ++ okResultsFor u l := by
  rw [okResultsFor, List.filterMap_cons]
  match hp : p.2 with
  | .ok r => by_cases hk : p.1 = u <;> simp [hp, hk, okResultsFor]
  | .error e => simp [hp, okResultsFor]

theorem okResultsFor_eq_nil (u : ℕ) :
    ∀ (l : List (ℕ × Except Unit ScanResult)), u ∉ l.map Prod.fst → okResultsFor u l = []
  | [], _ => rfl
  | p :: l, h => by
    rw [List.map_cons, List.mem_cons] at h
    push_neg at h
    rw [okResultsFor_cons, okResultsFor_eq_nil u l h.2]
    match hp : p.2 with
    | .ok r => simp [if_neg (fun hc : p.1 = u => h.1 hc.symm)]
    | .error e => simp

theorem okResultsFor_filter_key (u : ℕ) :
    ∀ (l : List (ℕ × Except Unit ScanResult)),
      okResultsFor u (l.filter (fun p => p.1 == u)) = okResultsFor u l
  | [] => rfl
  | p :: l => by
    by_cases hk : p.1 = u
    · rw [List.filter_cons_of_pos (by simpa using hk), okResultsFor_cons, okResultsFor_cons,
        okResultsFor_filter_key u l]
    · rw [List.filter_cons_of_neg (by simpa using hk), okResultsFor_filter_key u l,
        okResultsFor_cons]
      match hp : p.2 with
      | .ok r => simp [if_neg hk]
      | .error e => simp

theorem okResultsFor_of_unique (u : ℕ) (r : ScanResult) :
    ∀ (l : List (ℕ × Except Unit ScanResult)),
      (u, Except.ok r) ∈ l → (l.map Prod.fst).count u = 1 → okResultsFor u l = [r]
  | [], hmem, _ => absurd hmem (List.not_mem_nil _)
  | p :: l, hmem, hcount => by
    rw [List.map_cons, List.count_cons] at hcount
    rcases List.mem_cons.mp hmem with he | hm
    · have hp1 : p.1 = u := (congrArg Prod.fst he).symm
      have hp2 : p.2 = Except.ok r := (congrArg Prod.snd he).symm
      have hzero : (l.map Prod.fst).count u = 0 := by
        simp only [hp1, beq_self_eq_true, if_true] at hcount; omega
      have hnil : okResultsFor u l = [] :=
        okResultsFor_eq_nil u l (List.count_eq_zero.mp hzero)
      rw [okResultsFor_cons, hp2, hnil]
      simp [hp1]
    · by_cases hk : p.1 = u
      · have hzero : (l.map Prod.fst).count u = 0 := by
          simp only [hk, beq_self_eq_true, if_true] at hcount; omega
        have hnm : u ∉ l.map Prod.fst := List.count_eq_zero.mp hzero
        exact absurd (List.mem_map.mpr ⟨(u, Except.ok r), hm, rfl⟩) hnm
      · have hone : (l.map Prod.fst).count u = 1 := by
          simpa [hk] using hcount
        rw [okResultsFor_cons, okResultsFor_of_unique u r l hm hone]
        match hp : p.2 with
        | .ok r' => simp [if_neg hk]
        | .error e => simp

/-- C8: failure isolation in the concurrent collection phase.  A student
all of whose completed tasks raised is excluded from the results mapping;
every raised exception is caught and its student logged; a student whose
single task succeeded is mapped to exactly the finalized row built from
their own scan result; a student's entry depends only on that student's
own outcomes (any change to other students' outcomes leaves it
untouched); and every submitted student is accounted for — in the results
or in the error log — so the batch runs to completion. -/
theorem collect_isolates_failures (outcomes : List (ℕ × Except Unit ScanResult)) (u : ℕ) :
    ((∀ r : ScanResult, (u, Except.ok r) ∉ outcomes) →
        u ∉ keysMap (collectResults outcomes).results)
  ∧ (∀ e : Unit, (u, Except.error e) ∈ outcomes → u ∈ (collectResults outcomes).errorLog)
  ∧ (∀ r : ScanResult, (u, Except.ok r) ∈ outcomes → (outcomes.map Prod.fst).count u = 1 →
        lookupMap (collectResults outcomes).results u = some (mkRow u r))
  ∧ (∀ outcomes' : List (ℕ × Except Unit ScanResult),
        outcomes.filter (fun p => p.1 == u) = outcomes'.filter (fun p => p.1 == u) →
        lookupMap (collectResults outcomes).results u =
          lookupMap (collectResults outcomes').results u)
  ∧ (u ∈ outcomes.map Prod.fst →
        u ∈ keysMap (collectResults outcomes).results ∨ u ∈ (collectResults outcomes).errorLog) := by
  refine ⟨?_, ?_, ?_, ?_, ?_⟩
  · intro hnone hc
    rcases (mem_keys_collect_fold u outcomes ⟨[], []⟩).mp hc with h | ⟨r, hr⟩
    · simp [keysMap] at h
    · exact hnone r hr
  · intro e hmem
    rw [collectResults, errorLog_collect_fold]
    exact List.mem_append_right _ (List.mem_filterMap.mpr ⟨(u, Except.error e), hmem, rfl⟩)
  · intro r hmem hcount
    rw [collectResults, lookup_collect_fold, lastOk,
      okResultsFor_of_unique u r outcomes hmem hcount]
    rfl
  · intro outcomes' hfilter
    rw [collectResults, collectResults, lookup_collect_fold, lookup_collect_fold, lastOk,
      lastOk, ← okResultsFor_filter_key u outcomes, ← okResultsFor_filter_key u outcomes',
      hfilter]
  · intro hmem
    obtain ⟨p, hp, hpu⟩ := List.mem_map.mp hmem
    match he : p.2 with
    | .ok r =>
      refine Or.inl ((mem_keys_collect_fold u outcomes ⟨[], []⟩).mpr (Or.inr ⟨r, ?_⟩))
      have hpe : p = (u, Except.ok r) := by
        cases p with
        | mk a b => exact congrArg₂ Prod.mk hpu (by simpa using he)
      rwa [hpe] at hp
    | .error e =>
      refine Or.inr ?_
      rw [collectResults, errorLog_collect_fold]
      refine List.mem_append_right _ (List.mem_filterMap.mpr ⟨p, hp, ?_⟩)
      rw [he, hpu]

/-- Witness for C8 at a concrete batch: student 1 succeeded, student 2
failed; 2 is excluded and logged, 1 keeps their finalized row. -/
theorem collect_isolates_failures_witness :
    (2 ∉ keysMap (collectResults [(1, Except.ok sampleScan), (2, Except.error ())]).results)
  ∧ 2 ∈ (collectResults [(1, Except.ok sampleScan), (2, Except.error ())]).errorLog
  ∧ lookupMap (collectResults [(1, Except.ok sampleScan), (2, Except.error ())]).results 1
      = some (mkRow 1 sampleScan) :=
  ⟨(collect_isolates_failures _ 2).1 (fun r => by simp),
    (collect_isolates_failures _ 2).2.1 () (by simp),
    (collect_isolates_failures _ 1).2.2.1 sampleScan (by simp) (by simp)⟩

/-- C9 (counterexample): student 7's only task raised, so they are
omitted from the results mapping handed to the CSV writer — yet no
successful ScanResult for them exists at all, so no score-equivalence
judgement could have caused the omission. -/
theorem omitted_student_without_scores :
    (7 : ℕ) ∈ ([(7, Except.error ())] : List (ℕ × Except Unit ScanResult)).map Prod.fst
  ∧ (7 : ℕ) ∉ keysMap (collectResults [(7, Except.error ())]).results
  ∧ ∀ r : ScanResult,
      (7, Except.ok r) ∉ ([(7, Except.error ())] : List (ℕ × Except Unit ScanResult)) := by
  refine ⟨by simp, ?_, fun r => by simp⟩
  simp [collectResults, collectStep, keysMap]

/-- C9 (amended): a student of the batch appears in the results mapping
(and hence in the CSV) exactly when some completed task of theirs
succeeded; task failure is the only cause of omission, and no
score-equivalence condition is applied. -/
theorem collect_mem_iff_ok (outcomes : List (ℕ × Except Unit ScanResult)) (u : ℕ) :
    u ∈ keysMap (collectResults outcomes).results ↔
      ∃ r, (u, Except.ok r) ∈ outcomes := by
  rw [collectResults, mem_keys_collect_fold]
  simp [keysMap]

/-- Witness for C9's amended theorem: a student with equal (here: both
absent) original and makeup scores is still written to the results. -/
theorem collect_mem_iff_ok_witness :
    1 ∈ keysMap (collectResults [(1, Except.ok sampleScan)]).results :=
  (collect_mem_iff_ok [(1, Except.ok sampleScan)] 1).mpr ⟨sampleScan, by simp⟩

theorem strLe_refl : ∀ xs : List ℕ, strLe xs xs = true
  | [] => rfl
  | a :: as => by
    rw [strLe]
    simp [strLe_refl as]

theorem strLe_total : ∀ xs ys : List ℕ, (strLe xs ys || strLe ys xs) = true
  | [], _ => by rw [strLe]; simp
  | _ :: _, [] => by rw [strLe]; simp [strLe]
  | a :: as, b :: bs => by
    rw [strLe, strLe]
    rcases Nat.lt_trichotomy a b with h | h | h
    · simp [h]
    · simp [h, Nat.lt_irrefl, strLe_total as bs]
    · simp [h, Nat.lt_asymm h]

theorem strLe_trans :
    ∀ xs ys zs : List ℕ, strLe xs ys = true → strLe ys zs = true → strLe xs zs = true
  | [], _, _, _, _ => rfl
  | a :: as, [], _, hxy, _ => by rw [strLe] at hxy; exact absurd hxy (by simp)
  | a :: as, b :: bs, [], _, hyz => by rw [strLe] at hyz; exact absurd hyz (by simp)
  | a :: as, b :: bs, c :: cs, hxy, hyz => by
    rw [strLe] at hxy hyz ⊢
    rcases Nat.lt_trichotomy a b with hab | hab | hab
    · rcases Nat.lt_trichotomy b c with hbc | hbc | hbc
      · simp [Nat.lt_trans hab hbc]
      · subst hbc; simp [hab]
      · rw [if_neg (Nat.lt_asymm hbc), if_pos hbc] at hyz
        exact absurd hyz (by simp)
    · subst hab
      rcases Nat.lt_trichotomy a c with hac | hac | hac
      · simp [hac]
      · subst hac
        rw [if_neg (Nat.lt_irrefl a), if_neg (Nat.lt_irrefl a)] at hxy hyz ⊢
        exact strLe_trans as bs cs hxy hyz
      · rw [if_neg (Nat.lt_asymm hac), if_pos hac] at hyz
        exact absurd hyz (by simp)
    · rw [if_neg (Nat.lt_asymm hab), if_pos hab] at hxy
      exact absurd hxy (by simp)

theorem dateKeyLe_total (a b : Event) : (dateKeyLe a b || dateKeyLe b a) = true :=
  strLe_total _ _

theorem dateKeyLe_trans (a b c : Event) (h1 : dateKeyLe a b) (h2 : dateKeyLe b c) :
    dateKeyLe a c = true :=
  strLe_trans _ _ _ h1 h2

/-- `mergeSort` of a two-element list, explicitly. -/
theorem mergeSort_pair {α : Type} (le : α → α → Bool) (a b : α) :
    List.mergeSort [a, b] le = if le a b then [a, b] else [b, a] := by
  rw [List.mergeSort]
  simp [List.splitInTwo, List.splitAt, List.splitAt.go, List.merge]

/-- C6 (counterexample): the scanner sorts by the textual `date_iso8601`
key, not by the denoted instant.  With mixed UTC offsets the processed
order is decreasing in the instants, and two events denoting the same
instant do not keep their source order. -/
theorem sortLogs_not_instant_ordered :
    (sortLogs [evUtc, evMinus8] = [evMinus8, evUtc]
      ∧ toInstant evUtc.date_iso8601 < toInstant evMinus8.date_iso8601)
  ∧ (sortLogs [evUtc, evMinus8Same] = [evMinus8Same, evUtc]
      ∧ toInstant evUtc.date_iso8601 = toInstant evMinus8Same.date_iso8601) := by
  refine ⟨⟨?_, by decide⟩, ⟨?_, by decide⟩⟩
  · rw [sortLogs, mergeSort_pair]
    decide
  · rw [sortLogs, mergeSort_pair]
    decide

/-- C6 (amended): before replay the scanner stably sorts the fetched
events by their textual `date_iso8601` key: the result is a permutation
of the input, consecutive keys are nondecreasing in string order, and the
events carrying any fixed key keep their source order.  (Only when all
keys share one offset/format does this coincide with instant order.) -/
theorem sortLogs_sorted_stable (logs : List Event) :
    (sortLogs logs).Perm logs
  ∧ (sortLogs logs).Pairwise (fun a b => dateKeyLe a b = true)
  ∧ ∀ k : List ℕ,
      (sortLogs logs).filter (fun e => decide (render e.date_iso8601 = k)) =
        logs.filter (fun e => decide (render e.date_iso8601 = k)) := by
  refine ⟨List.mergeSort_perm logs dateKeyLe,
    List.sorted_mergeSort dateKeyLe_trans dateKeyLe_total logs, fun k => ?_⟩
  set p : Event → Bool := fun e => decide (render e.date_iso8601 = k) with hp
  have hallk : ∀ e, p e = true → render e.date_iso8601 = k := fun e he => by
    simpa [hp] using he
  have hcpw : (logs.filter p).Pairwise (fun a b => dateKeyLe a b = true) := by
    refine List.pairwise_of_forall_mem_list (fun a ha b hb => ?_)
    have hak := hallk a (List.of_mem_filter ha)
    have hbk := hallk b (List.of_mem_filter hb)
    rw [dateKeyLe, hak, hbk]
    exact strLe_refl k
  have hsub : List.Sublist (logs.filter p) (sortLogs logs) :=
    List.sublist_mergeSort dateKeyLe_trans dateKeyLe_total hcpw (List.filter_sublist logs)
  have hsub2 : List.Sublist (logs.filter p) ((sortLogs logs).filter p) := by
    have := List.Sublist.filter p hsub
    rwa [List.filter_filter, show (fun e => p e && p e) = p by funext e; cases p e <;> simp]
      at this
  have hlen : ((sortLogs logs).filter p).length = (logs.filter p).length :=
    ((List.mergeSort_perm logs dateKeyLe).filter p).length_eq
  exact (List.Sublist.eq_of_length hsub2 hlen.symm).symm

/-- One-step unfolding of the retry loop. -/
theorem apiLoop_eq {α : Type} (status : ℕ → ℕ) (body : ℕ → α) (retry_max i retry_cnt : ℕ) :
    apiLoop status body retry_max i retry_cnt =
      if status i = 200 then (.ok (body i), 1, 0)
      else if status i = 502 then
        if retry_cnt + 1 ≥ retry_max then (.retryExhausted, 1, 0)
        else
          let r := apiLoop status body retry_max (i + 1) (retry_cnt + 1)
          (r.1, r.2.1 + 1, r.2.2 + 10)
      else (.invalidStatus (status i), 1, 0) := by
  rw [apiLoop]

/-- If the first `k` responses are 502, retries remain, and the `k`-th
response is 200, the loop succeeds with the `k`-th body after `k + 1`
requests and `10 * k` seconds of sleep. -/
theorem apiLoop_ok {α : Type} (status : ℕ → ℕ) (body : ℕ → α) (retry_max : ℕ) :
    ∀ (k i retry_cnt : ℕ), retry_cnt + k < retry_max →
      (∀ j, j < k → status (i + j) = 502) → status (i + k) = 200 →
      apiLoop status body retry_max i retry_cnt = (.ok (body (i + k)), k + 1, 10 * k)
  | 0, i, cnt, _, _, h200 => by
    rw [apiLoop_eq]
    simp only [Nat.add_zero] at h200
    simp [h200]
  | k + 1, i, cnt, hlt, h502, h200 => by
    have h0 : status i = 502 := by simpa using h502 0 (Nat.succ_pos k)
    have ih := apiLoop_ok status body retry_max k (i + 1) (cnt + 1) (by omega)
      (fun j hj => by
        have := h502 (j + 1) (by omega)
        simpa [Nat.add_comm, Nat.add_left_comm] using this)
      (by simpa [Nat.add_comm, Nat.add_left_comm] using h200)
    rw [apiLoop_eq, if_neg (by simp [h0]), if_pos h0, if_neg (by omega)]
    simp only [ih]
    refine congrArg₂ Prod.mk ?_ (congrArg₂ Prod.mk rfl (by ring))
    simp [Nat.add_comm, Nat.add_left_comm]

/-- If every remaining permitted response is 502, the loop exhausts its
retries: with `d` attempts left (`retry_cnt + d = retry_max`), it raises
after `d` requests and `10 * (d - 1)` seconds of sleep. -/
theorem apiLoop_exhaust {α : Type} (status : ℕ → ℕ) (body : ℕ → α) (retry_max : ℕ) :
    ∀ (d i retry_cnt : ℕ), retry_cnt + d = retry_max → 0 < d →
      (∀ j, j < d → status (i + j) = 502) →
      apiLoop status body retry_max i retry_cnt = (.retryExhausted, d, 10 * (d - 1))
  | 0, _, _, _, hd, _ => absurd hd (by omega)
  | 1, i, cnt, heq, _, h502 => by
    have h0 : status i = 502 := by simpa using h502 0 Nat.one_pos
    rw [apiLoop_eq, if_neg (by simp [h0]), if_pos h0, if_pos (by omega)]
  | d + 2, i, cnt, heq, _, h502 => by
    have h0 : status i = 502 := by simpa using h502 0 (by omega)
    have ih := apiLoop_exhaust status body retry_max (d + 1) (i + 1) (cnt + 1)
      (by omega) (by omega)
      (fun j hj => by
        have := h502 (j + 1) (by omega)
        simpa [Nat.add_comm, Nat.add_left_comm] using this)
    rw [apiLoop_eq, if_neg (by simp [h0]), if_pos h0, if_neg (by omega)]
    simp only [ih]
    refine congrArg₂ Prod.mk rfl (congrArg₂ Prod.mk rfl ?_)
    omega

/-- If the first `k` responses are 502, retries remain, and the `k`-th
response is neither 200 nor 502, the loop raises the non-retryable error
immediately at that response, after `k + 1` requests. -/
theorem apiLoop_invalid {α : Type} (status : ℕ → ℕ) (body : ℕ → α) (retry_max : ℕ) :
    ∀ (k i retry_cnt : ℕ), retry_cnt + k < retry_max →
      (∀ j, j < k → status (i + j) = 502) →
      status (i + k) ≠ 200 → status (i + k) ≠ 502 →
      apiLoop status body retry_max i retry_cnt =
        (.invalidStatus (status (i + k)), k + 1, 10 * k)
  | 0, i, cnt, _, _, h200, h502 => by
    simp only [Nat.add_zero] at h200 h502
    rw [apiLoop_eq, if_neg h200, if_neg h502]
    simp
  | k + 1, i, cnt, hlt, hall, h200, h502 => by
    have h0 : status i = 502 := by simpa using hall 0 (Nat.succ_pos k)
    have ih := apiLoop_invalid status body retry_max k (i + 1) (cnt + 1) (by omega)
      (fun j hj => by
        have := hall (j + 1) (by omega)
        simpa [Nat.add_comm, Nat.add_left_comm] using this)
      (by simpa [Nat.add_comm, Nat.add_left_comm] using h200)
      (by simpa [Nat.add_comm, Nat.add_left_comm] using h502)
    rw [apiLoop_eq, if_neg (by simp [h0]), if_pos h0, if_neg (by omega)]
    simp only [ih]
    refine congrArg₂ Prod.mk ?_ (congrArg₂ Prod.mk rfl (by ring))
    simp [Nat.add_comm, Nat.add_left_comm]

/-- C7: the client's retry contract.  Only 502 is retried; each retry
sleeps a fixed 10 seconds; at most `retry_max` requests are ever issued;
a 200 returns the parsed body of that attempt; any other status raises
immediately at the first attempt that produced it; exhausting the retry
budget on 502s raises; and the three outcomes (success, retry exhaustion,
non-retryable status) are pairwise distinct values. -/
theorem api_request_retry_contract {α : Type} (status : ℕ → ℕ) (body : ℕ → α)
    (retry_max : ℕ) (hpos : 0 < retry_max) :
    (∀ k, k < retry_max → (∀ j, j < k → status j = 502) → status k = 200 →
       api_request status body retry_max = (.ok (body k), k + 1, 10 * k))
  ∧ ((∀ j, j < retry_max → status j = 502) →
       api_request status body retry_max = (.retryExhausted, retry_max, 10 * (retry_max - 1)))
  ∧ (∀ k, k < retry_max → (∀ j, j < k → status j = 502) →
       status k ≠ 200 → status k ≠ 502 →
       api_request status body retry_max = (.invalidStatus (status k), k + 1, 10 * k))
  ∧ (∀ c, (ApiOutcome.retryExhausted : ApiOutcome α) ≠ .invalidStatus c)
  ∧ (∀ b c, (ApiOutcome.ok b : ApiOutcome α) ≠ .retryExhausted
       ∧ (ApiOutcome.ok b : ApiOutcome α) ≠ .invalidStatus c) := by
  refine ⟨?_, ?_, ?_, ?_, ?_⟩
  · intro k hk hall h200
    have := apiLoop_ok status body retry_max k 0 0 (by omega)
      (fun j hj => by simpa using hall j hj) (by simpa using h200)
    simpa [api_request] using this
  · intro hall
    have := apiLoop_exhaust status body retry_max retry_max 0 0 (by omega) hpos
      (fun j hj => by simpa using hall j hj)
    simpa [api_request] using this
  · intro k hk hall h200 h502
    have := apiLoop_invalid status body retry_max k 0 0 (by omega)
      (fun j hj => by simpa using hall j hj) (by simpa using h200) (by simpa using h502)
    simpa [api_request] using this
  · intro c h
    exact ApiOutcome.noConfusion h
  · intro b c
    exact ⟨fun h => ApiOutcome.noConfusion h, fun h => ApiOutcome.noConfusion h⟩

/-- Witness for C7 at concrete response sequences: two 502s then a 200
succeed with two sleeps; five straight 502s exhaust the default budget;
a 404 after one 502 raises the non-retryable error at once. -/
theorem api_request_retry_contract_witness :
    api_request (fun i => if i < 2 then 502 else 200) (fun i => (i : ℚ)) 5 = (.ok 2, 3, 20)
  ∧ api_request (fun _ => 502) (fun i => (i : ℚ)) 5 = (.retryExhausted, 5, 40)
  ∧ api_request (fun i => if i = 0 then 502 else 404) (fun i => (i : ℚ)) 5
      = (.invalidStatus 404, 2, 10) := by
  refine ⟨?_, ?_, ?_⟩
  · have h := (api_request_retry_contract (fun i => if i < 2 then 502 else 200)
      (fun i => (i : ℚ)) 5 (by norm_num)).1 2 (by norm_num)
      (fun j hj => by simp [hj]) (by norm_num)
    simpa using h
  · have h := (api_request_retry_contract (fun _ => 502)
      (fun i => (i : ℚ)) 5 (by norm_num)).2.1 (fun j _ => rfl)
    simpa using h
  · have h := (api_request_retry_contract (fun i => if i = 0 then 502 else 404)
      (fun i => (i : ℚ)) 5 (by norm_num)).2.2.1 1 (by norm_num)
      (fun j hj => by simp [Nat.lt_one_iff.mp hj]) (by norm_num) (by norm_num)
    simpa using h

theorem updWindows_orig_score (due makeup : ℤ) (w : WinState) (t : ℤ) (v : ℚ) :
    (updWindows due makeup w t v).orig_score =
      if decide (t ≤ due) && betterScore w.orig_score v then some v else w.orig_score := by
  simp only [updWindows]
  by_cases h1 : (decide (t ≤ due) && betterScore w.orig_score v) = true
  · simp only [if_pos h1]
    split <;> rfl
  · simp only [if_neg h1]
    split <;> rfl

theorem updWindows_orig_date (due makeup : ℤ) (w : WinState) (t : ℤ) (v : ℚ) :
    (updWindows due makeup w t v).orig_date =
      if decide (t ≤ due) && betterScore w.orig_score v then some t else w.orig_date := by
  simp only [updWindows]
  by_cases h1 : (decide (t ≤ due) && betterScore w.orig_score v) = true
  · simp only [if_pos h1]
    split <;> rfl
  · simp only [if_neg h1]
    split <;> rfl

theorem updWindows_makeup_score (due makeup : ℤ) (w : WinState) (t : ℤ) (v : ℚ) :
    (updWindows due makeup w t v).makeup_score =
      if decide (t ≤ makeup) && betterScore w.makeup_score v then some v else w.makeup_score := by
  simp only [updWindows]
  by_cases h1 : (decide (t ≤ due) && betterScore w.orig_score v) = true
  · simp only [if_pos h1]
    split <;> rfl
  · simp only [if_neg h1]
    split <;> rfl

theorem updWindows_makeup_date (due makeup : ℤ) (w : WinState) (t : ℤ) (v : ℚ) :
    (updWindows due makeup w t v).makeup_date =
      if decide (t ≤ makeup) && betterScore w.makeup_score v then some t else w.makeup_date := by
  simp only [updWindows]
  by_cases h1 : (decide (t ≤ due) && betterScore w.orig_score v) = true
  · simp only [if_pos h1]
    split <;> rfl
  · simp only [if_neg h1]
    split <;> rfl

theorem betterScore_step (a : Option ℚ) (v : ℚ) :
    (if betterScore a v then some v else a) =
      some (match a with | none => v | some s => max s v) := by
  cases a with
  | none => rfl
  | some s =>
    by_cases h : s < v
    · rw [show betterScore (some s) v = true by simp [betterScore, h], if_pos rfl]
      show some v = some (max s v)
      rw [max_eq_right (le_of_lt h)]
    · rw [show betterScore (some s) v = false by simp [betterScore, h], if_neg (by simp)]
      show some s = some (max s v)
      rw [max_eq_left (not_lt.mp h)]

theorem optMax_cons (o : Option ℚ) (x : ℚ) (xs : List ℚ) :
    optMax o (x :: xs) =
      optMax (some (match o with | none => x | some s => max s x)) xs := rfl

theorem optMax_some : ∀ (l : List ℚ) (s : ℚ), optMax (some s) l = some (l.foldl max s)
  | [], s => rfl
  | v :: l, s => by
    rw [optMax_cons, optMax_some l (max s v)]
    rfl

theorem optMax_none : ∀ l : List ℚ, optMax none l = l.max?
  | [] => rfl
  | v :: l => by
    rw [optMax_cons, optMax_some]
    rfl

theorem windowCands_cons_pos {cutoff : ℤ} {c : ℤ × ℚ} (cs : List (ℤ × ℚ))
    (h : c.1 ≤ cutoff) : windowCands cutoff (c :: cs) = c :: windowCands cutoff cs := by
  rw [windowCands, windowCands, List.filter_cons_of_pos (by simpa using h)]

theorem windowCands_cons_neg {cutoff : ℤ} {c : ℤ × ℚ} (cs : List (ℤ × ℚ))
    (h : ¬ c.1 ≤ cutoff) : windowCands cutoff (c :: cs) = windowCands cutoff cs := by
  rw [windowCands, windowCands, List.filter_cons_of_neg (by simpa using h)]

theorem windowsFold_orig_score (due makeup : ℤ) :
    ∀ (cs : List (ℤ × ℚ)) (w : WinState),
      (windowsFold due makeup w cs).orig_score =
        optMax w.orig_score ((windowCands due cs).map Prod.snd)
  | [], w => rfl
  | c :: cs, w => by
    rw [windowsFold, windowsFold_orig_score due makeup cs]
    by_cases hc : c.1 ≤ due
    · rw [windowCands_cons_pos cs hc, List.map_cons, optMax_cons]
      have hcond : (updWindows due makeup w c.1 c.2).orig_score =
          some (match w.orig_score with | none => c.2 | some s => max s c.2) := by
        rw [updWindows_orig_score, decide_eq_true hc, Bool.true_and, betterScore_step]
      rw [hcond]
    · rw [windowCands_cons_neg cs hc]
      have hcond : (updWindows due makeup w c.1 c.2).orig_score = w.orig_score := by
        rw [updWindows_orig_score, decide_eq_false hc, Bool.false_and, if_neg (by simp)]
      rw [hcond]

theorem windowsFold_makeup_score (due makeup : ℤ) :
    ∀ (cs : List (ℤ × ℚ)) (w : WinState),
      (windowsFold due makeup w cs).makeup_score =
        optMax w.makeup_score ((windowCands makeup cs).map Prod.snd)
  | [], w => rfl
  | c :: cs, w => by
    rw [windowsFold, windowsFold_makeup_score due makeup cs]
    by_cases hc : c.1 ≤ makeup
    · rw [windowCands_cons_pos cs hc, List.map_cons, optMax_cons]
      have hcond : (updWindows due makeup w c.1 c.2).makeup_score =
          some (match w.makeup_score with | none => c.2 | some s => max s c.2) := by
        rw [updWindows_makeup_score, decide_eq_true hc, Bool.true_and, betterScore_step]
      rw [hcond]
    · rw [windowCands_cons_neg cs hc]
      have hcond : (updWindows due makeup w c.1 c.2).makeup_score = w.makeup_score := by
        rw [updWindows_makeup_score, decide_eq_false hc, Bool.false_and, if_neg (by simp)]
      rw [hcond]

theorem mem_windowCands_cons {cutoff : ℤ} {c c' : ℤ × ℚ} {cs : List (ℤ × ℚ)}
    (h : c' ∈ windowCands cutoff cs) : c' ∈ windowCands cutoff (c :: cs) := by
  rcases List.mem_filter.mp h with ⟨hm, hp⟩
  exact List.mem_filter.mpr ⟨List.mem_cons_of_mem _ hm, hp⟩

theorem windowsFold_orig_inv (due makeup : ℤ) (P : ℤ → ℚ → Prop) :
    ∀ (cs : List (ℤ × ℚ)) (w : WinState),
      w.orig_score.isSome = w.orig_date.isSome →
      (∀ s t, w.orig_score = some s → w.orig_date = some t → P t s) →
      (∀ c ∈ windowCands due cs, P c.1 c.2) →
      ((windowsFold due makeup w cs).orig_score.isSome
          = (windowsFold due makeup w cs).orig_date.isSome)
      ∧ ∀ s t, (windowsFold due makeup w cs).orig_score = some s →
          (windowsFold due makeup w cs).orig_date = some t → P t s
  | [], _, h1, h2, _ => ⟨h1, h2⟩
  | c :: cs, w, h1, h2, hall => by
    rw [windowsFold]
    by_cases hcond : (decide (c.1 ≤ due) && betterScore w.orig_score c.2) = true
    · refine windowsFold_orig_inv due makeup P cs _ ?_ ?_
        (fun c' hc' => hall c' (mem_windowCands_cons hc'))
      · rw [updWindows_orig_score, updWindows_orig_date, if_pos hcond, if_pos hcond]
        rfl
      · intro s t hs ht
        rw [updWindows_orig_score, if_pos hcond] at hs
        rw [updWindows_orig_date, if_pos hcond] at ht
        have hmem : c ∈ windowCands due (c :: cs) := by
          refine List.mem_filter.mpr ⟨List.mem_cons_self c cs, ?_⟩
          have := (Bool.and_eq_true _ _).mp hcond
          simpa using this.1
        have hP := hall c hmem
        rwa [← Option.some_inj.mp hs, ← Option.some_inj.mp ht]
    · refine windowsFold_orig_inv due makeup P cs _ ?_ ?_
        (fun c' hc' => hall c' (mem_windowCands_cons hc'))
      · rwa [updWindows_orig_score, updWindows_orig_date, if_neg hcond, if_neg hcond]
      · intro s t hs ht
        rw [updWindows_orig_score, if_neg hcond] at hs
        rw [updWindows_orig_date, if_neg hcond] at ht
        exact h2 s t hs ht

theorem windowsFold_makeup_inv (due makeup : ℤ) (P : ℤ → ℚ → Prop) :
    ∀ (cs : List (ℤ × ℚ)) (w : WinState),
      w.makeup_score.isSome = w.makeup_date.isSome →
      (∀ s t, w.makeup_score = some s → w.makeup_date = some t → P t s) →
      (∀ c ∈ windowCands makeup cs, P c.1 c.2) →
      ((windowsFold due makeup w cs).makeup_score.isSome
          = (windowsFold due makeup w cs).makeup_date.isSome)
      ∧ ∀ s t, (windowsFold due makeup w cs).makeup_score = some s →
          (windowsFold due makeup w cs).makeup_date = some t → P t s
  | [], _, h1, h2, _ => ⟨h1, h2⟩
  | c :: cs, w, h1, h2, hall => by
    rw [windowsFold]
    by_cases hcond : (decide (c.1 ≤ makeup) && betterScore w.makeup_score c.2) = true
    · refine windowsFold_makeup_inv due makeup P cs _ ?_ ?_
        (fun c' hc' => hall c' (mem_windowCands_cons hc'))
      · rw [updWindows_makeup_score, updWindows_makeup_date, if_pos hcond, if_pos hcond]
        rfl
      · intro s t hs ht
        rw [updWindows_makeup_score, if_pos hcond] at hs
        rw [updWindows_makeup_date, if_pos hcond] at ht
        have hmem : c ∈ windowCands makeup (c :: cs) := by
          refine List.mem_filter.mpr ⟨List.mem_cons_self c cs, ?_⟩
          have := (Bool.and_eq_true _ _).mp hcond
          simpa using this.1
        have hP := hall c hmem
        rwa [← Option.some_inj.mp hs, ← Option.some_inj.mp ht]
    · refine windowsFold_makeup_inv due makeup P cs _ ?_ ?_
        (fun c' hc' => hall c' (mem_windowCands_cons hc'))
      · rwa [updWindows_makeup_score, updWindows_makeup_date, if_neg hcond, if_neg hcond]
      · intro s t hs ht
        rw [updWindows_makeup_score, if_neg hcond] at hs
        rw [updWindows_makeup_date, if_neg hcond] at ht
        exact h2 s t hs ht

theorem scanLoop_eq_windowsFold (lastM : QMap) (due makeup : ℤ) :
    ∀ (events : List Event) (st : ScanState) (w : WinState),
      scanLoop lastM due makeup st w events =
        windowsFold due makeup w (replayCands lastM st events)
  | [], _, _ => rfl
  | e :: rest, st, w => by
    cases hk : e.kind with
    | scoreAssessment p =>
      simp only [scanLoop, replayCands, hk, windowsFold]
      exact scanLoop_eq_windowsFold lastM due makeup rest _ _
    | manualGradingResult q mp =>
      simp only [scanLoop, replayCands, hk, windowsFold]
      exact scanLoop_eq_windowsFold lastM due makeup rest _ _
    | other =>
      simp only [scanLoop, replayCands, hk]
      exact scanLoop_eq_windowsFold lastM due makeup rest _ _

/-- Characterization of one scan: each window's score is the maximum
candidate value inside the window, scores and dates are defined together,
and a defined (score, date) pair is one of the window's candidates. -/
theorem scan_hw_log_char (questions : List Question) (logs : List Event) (due makeup : ℤ) :
    (scan_hw_log questions logs due makeup).orig_score
        = bestScore due (scanCands questions logs)
  ∧ (scan_hw_log questions logs due makeup).makeup_score
        = bestScore makeup (scanCands questions logs)
  ∧ ((scan_hw_log questions logs due makeup).orig_score.isSome
        = (scan_hw_log questions logs due makeup).orig_date.isSome)
  ∧ ((scan_hw_log questions logs due makeup).makeup_score.isSome
        = (scan_hw_log questions logs due makeup).makeup_date.isSome)
  ∧ (∀ s t, (scan_hw_log questions logs due makeup).orig_score = some s →
      (scan_hw_log questions logs due makeup).orig_date = some t →
      (t, s) ∈ windowCands due (scanCands questions logs))
  ∧ (∀ s t, (scan_hw_log questions logs due makeup).makeup_score = some s →
      (scan_hw_log questions logs due makeup).makeup_date = some t →
      (t, s) ∈ windowCands makeup (scanCands questions logs)) := by
  have hloop :
      scanLoop (lastManualPass (initMap (manualNames questions)) (sortLogs logs)) due makeup
          ⟨0, initMap (manualNames questions)⟩ ⟨none, none, none, none⟩ (sortLogs logs) =
        windowsFold due makeup ⟨none, none, none, none⟩ (scanCands questions logs) :=
    scanLoop_eq_windowsFold _ due makeup _ _ _
  have horig := windowsFold_orig_inv due makeup
    (fun t s => (t, s) ∈ windowCands due (scanCands questions logs))
    (scanCands questions logs) ⟨none, none, none, none⟩ rfl
    (fun s t hs _ => by exact absurd hs (by simp)) (fun c hc => by simpa using hc)
  have hmk := windowsFold_makeup_inv due makeup
    (fun t s => (t, s) ∈ windowCands makeup (scanCands questions logs))
    (scanCands questions logs) ⟨none, none, none, none⟩ rfl
    (fun s t hs _ => by exact absurd hs (by simp)) (fun c hc => by simpa using hc)
  refine ⟨?_, ?_, ?_, ?_, ?_, ?_⟩
  · show (scanLoop _ due makeup _ _ _).orig_score = _
    rw [hloop, windowsFold_orig_score, optMax_none]
    rfl
  · show (scanLoop _ due makeup _ _ _).makeup_score = _
    rw [hloop, windowsFold_makeup_score, optMax_none]
    rfl
  · show (scanLoop _ due makeup _ _ _).orig_score.isSome
        = (scanLoop _ due makeup _ _ _).orig_date.isSome
    rw [hloop]
    exact horig.1
  · show (scanLoop _ due makeup _ _ _).makeup_score.isSome
        = (scanLoop _ due makeup _ _ _).makeup_date.isSome
    rw [hloop]
    exact hmk.1
  · intro s t hs ht
    rw [show (scan_hw_log questions logs due makeup).orig_score
        = (scanLoop (lastManualPass (initMap (manualNames questions)) (sortLogs logs))
            due makeup ⟨0, initMap (manualNames questions)⟩
            ⟨none, none, none, none⟩ (sortLogs logs)).orig_score from rfl, hloop] at hs
    rw [show (scan_hw_log questions logs due makeup).orig_date
        = (scanLoop (lastManualPass (initMap (manualNames questions)) (sortLogs logs))
            due makeup ⟨0, initMap (manualNames questions)⟩
            ⟨none, none, none, none⟩ (sortLogs logs)).orig_date from rfl, hloop] at ht
    exact horig.2 s t hs ht
  · intro s t hs ht
    rw [show (scan_hw_log questions logs due makeup).makeup_score
        = (scanLoop (lastManualPass (initMap (manualNames questions)) (sortLogs logs))
            due makeup ⟨0, initMap (manualNames questions)⟩
            ⟨none, none, none, none⟩ (sortLogs logs)).makeup_score from rfl, hloop] at hs
    rw [show (scan_hw_log questions logs due makeup).makeup_date
        = (scanLoop (lastManualPass (initMap (manualNames questions)) (sortLogs logs))
            due makeup ⟨0, initMap (manualNames questions)⟩
            ⟨none, none, none, none⟩ (sortLogs logs)).makeup_date from rfl, hloop] at ht
    exact hmk.2 s t hs ht

/-- Concrete evaluation of the scanner on the spec's scenario, with
`due_date = t1` and `makeup_due_date = t2`. -/
theorem scan_scenario_eval :
    scan_hw_log [hw1] [sa1, mg5, mg8] (toInstant t1) (toInstant t2) =
      ⟨some 108, some (toInstant t1), some 108, some (toInstant t1), 100⟩ := by
  rw [scan_hw_log, sortLogs, List.mergeSort_of_sorted (by decide)]
  norm_num [scanLoop, updWindows, betterScore, sumMap, updMap, lookupMap, initMap,
    lastManualPass, manualNames, toInstant, daysFromCivil, dig, sa1, mg5, mg8, t1, t2, hw1]

/-- C2: under the whole-assessment policy each window's score is the
maximum normalized total among the scoring-event candidates whose instant
is ≤ the window cutoff (boundary inclusive); a defined score comes with a
date that is an instant at which that score was achieved inside the
window; and a window with no qualifying candidate yields an absent score,
not zero. -/
theorem scan_window_max (questions : List Question) (logs : List Event) (due makeup : ℤ) :
    (scan_hw_log questions logs due makeup).orig_score
        = bestScore due (scanCands questions logs)
  ∧ (scan_hw_log questions logs due makeup).makeup_score
        = bestScore makeup (scanCands questions logs)
  ∧ ((scan_hw_log questions logs due makeup).orig_score.isSome
        = (scan_hw_log questions logs due makeup).orig_date.isSome)
  ∧ ((scan_hw_log questions logs due makeup).makeup_score.isSome
        = (scan_hw_log questions logs due makeup).makeup_date.isSome)
  ∧ (∀ s t, (scan_hw_log questions logs due makeup).orig_score = some s →
      (scan_hw_log questions logs due makeup).orig_date = some t →
      (t, s) ∈ windowCands due (scanCands questions logs))
  ∧ (∀ s t, (scan_hw_log questions logs due makeup).makeup_score = some s →
      (scan_hw_log questions logs due makeup).makeup_date = some t →
      (t, s) ∈ windowCands makeup (scanCands questions logs))
  ∧ (windowCands due (scanCands questions logs) = [] →
      (scan_hw_log questions logs due makeup).orig_score = none)
  ∧ (windowCands makeup (scanCands questions logs) = [] →
      (scan_hw_log questions logs due makeup).makeup_score = none) := by
  have h := scan_hw_log_char questions logs due makeup
  refine ⟨h.1, h.2.1, h.2.2.1, h.2.2.2.1, h.2.2.2.2.1, h.2.2.2.2.2, ?_, ?_⟩
  · intro hempty
    rw [h.1, bestScore, hempty]
    rfl
  · intro hempty
    rw [h.2.1, bestScore, hempty]
    rfl

/-- Witness for C2 at the concrete scenario: the achieved (date, score)
pair of the original window is indeed one of its in-window candidates. -/
theorem scan_window_max_witness :
    (toInstant t1, (108 : ℚ)) ∈ windowCands (toInstant t1) (scanCands [hw1] [sa1, mg5, mg8]) := by
  have h := (scan_window_max [hw1] [sa1, mg5, mg8] (toInstant t1) (toInstant t2)).2.2.2.2.1
  exact h 108 (toInstant t1) (by rw [scan_scenario_eval]) (by rw [scan_scenario_eval])

/-- C4: whenever both window scores are defined and due ≤ makeup cutoff,
the makeup score is at least the original score: the makeup window's
candidates are a superset of the original window's, and each window takes
the maximum. -/
theorem makeup_ge_orig (questions : List Question) (logs : List Event) (due makeup : ℤ)
    (hdm : due ≤ makeup) (o m : ℚ)
    (ho : (scan_hw_log questions logs due makeup).orig_score = some o)
    (hm : (scan_hw_log questions logs due makeup).makeup_score = some m) :
    o ≤ m := by
  have hc := scan_hw_log_char questions logs due makeup
  rw [hc.1] at ho
  rw [hc.2.1] at hm
  have hsub : List.Sublist (windowCands due (scanCands questions logs))
      (windowCands makeup (scanCands questions logs)) := by
    refine List.monotone_filter_right _ (fun c hcd => ?_)
    have : c.1 ≤ due := of_decide_eq_true hcd
    exact decide_eq_true (le_trans this hdm)
  have hmem : o ∈ (windowCands due (scanCands questions logs)).map Prod.snd :=
    List.max?_mem (fun a b => max_choice a b) ho
  have hub : ∀ b ∈ (windowCands makeup (scanCands questions logs)).map Prod.snd, b ≤ m :=
    (List.max?_le_iff (fun a b c => max_le_iff) hm).mp (le_refl m)
  exact hub o ((hsub.map Prod.snd).subset hmem)

/-- Witness for C4 at the concrete scenario (both scores defined, 108 ≤ 108). -/
theorem makeup_ge_orig_witness : (108 : ℚ) ≤ 108 :=
  makeup_ge_orig [hw1] [sa1, mg5, mg8] (toInstant t1) (toInstant t2) (by decide) 108 108
    (by rw [scan_scenario_eval]) (by rw [scan_scenario_eval])

/-- C5 (counterexample): at the spec's concrete scenario the scanner
returns orig_score = 108, not the claimed 103: the ScoreAssessment event
at t1 is replayed before the same-instant manual-grading event, so its
normalized total is 100 − 0 + 8 = 108, which is the window maximum. -/
theorem scan_scenario_not_103 :
    (scan_hw_log [hw1] [sa1, mg5, mg8] (toInstant t1) (toInstant t2)).orig_score = some 108
  ∧ some (108 : ℚ) ≠ some (103 : ℚ) :=
  ⟨by rw [scan_scenario_eval], by norm_num⟩

/-- C5 (amended): at the concrete scenario the scanner returns
orig_score = 108 with orig_date = t1, and makeup_score = 108 (achieved at
t1 as well); total_points = 100. -/
theorem scan_scenario_result :
    scan_hw_log [hw1] [sa1, mg5, mg8] (toInstant t1) (toInstant t2) =
      ⟨some 108, some (toInstant t1), some 108, some (toInstant t1), 100⟩ :=
  scan_scenario_eval

theorem or_some_right {α : Type} (x : Option α) (c : α) : x.or (some c) = some (x.getD c) := by
  cases x <;> rfl

theorem lastManualPass_cons (init : QMap) (e : Event) (l : List Event) :
    lastManualPass init (e :: l) =
      lastManualPass
        (match e.kind with
         | .manualGradingResult q p => updMap init q p
         | _ => init) l := by
  match hk : e.kind with
  | .manualGradingResult q p => simp [lastManualPass, hk]
  | .scoreAssessment p => simp [lastManualPass, hk]
  | .other => simp [lastManualPass, hk]

theorem mgrPointsFor_cons (q : ℕ) (e : Event) (l : List Event) :
    mgrPointsFor q (e :: l) =
      (match e.kind with
       | .manualGradingResult q' p => if q' = q then [p] else []
       | _ => []) ++ mgrPointsFor q l := by
  rw [mgrPointsFor, List.filterMap_cons]
  match hk : e.kind with
  | .manualGradingResult q' p => by_cases hq : q' = q <;> simp [hk, hq, mgrPointsFor]
  | .scoreAssessment p => simp [hk, mgrPointsFor]
  | .other => simp [hk, mgrPointsFor]

theorem mgrQids_cons (e : Event) (l : List Event) :
    mgrQids (e :: l) =
      (match e.kind with
       | .manualGradingResult q _ => [q]
       | _ => []) ++ mgrQids l := by
  rw [mgrQids, List.filterMap_cons]
  match hk : e.kind with
  | .manualGradingResult q p => simp [hk, mgrQids]
  | .scoreAssessment p => simp [hk, mgrQids]
  | .other => simp [hk, mgrQids]

/-- The lookup of the last-manual-score dict after any fold: the latest
recorded manual points for the question, falling back to the initial
dict. -/
theorem lookup_lastManualPass (q : ℕ) :
    ∀ (l : List Event) (init : QMap),
      lookupMap (lastManualPass init l) q =
        ((mgrPointsFor q l).getLast?).or (lookupMap init q)
  | [], init => by simp [lastManualPass, mgrPointsFor]
  | e :: l, init => by
    rw [lastManualPass_cons, mgrPointsFor_cons]
    match hk : e.kind with
    | .manualGradingResult q' p =>
      dsimp only
      rw [lookup_lastManualPass q l, lookupMap_updMap, List.getLast?_append]
      by_cases hq : q' = q
      · rw [if_pos hq, if_pos hq.symm]
        cases hgl : (mgrPointsFor q l).getLast? <;> rfl
      · rw [if_neg hq, if_neg (fun hc : q = q' => hq hc.symm)]
        simp
    | .scoreAssessment p =>
      dsimp only
      rw [lookup_lastManualPass q l, List.getLast?_append]
      simp
    | .other =>
      dsimp only
      rw [lookup_lastManualPass q l, List.getLast?_append]
      simp

theorem mem_keys_lastManualPass (q : ℕ) :
    ∀ (l : List Event) (init : QMap),
      q ∈ keysMap (lastManualPass init l) ↔ q ∈ keysMap init ∨ q ∈ mgrQids l
  | [], init => by simp [lastManualPass, mgrQids]
  | e :: l, init => by
    rw [lastManualPass_cons, mgrQids_cons]
    match hk : e.kind with
    | .manualGradingResult q' p =>
      rw [mem_keys_lastManualPass q l, mem_keysMap_updMap]
      simp only [List.cons_append, List.nil_append, List.mem_cons]
      tauto
    | .scoreAssessment p =>
      rw [mem_keys_lastManualPass q l]
      simp
    | .other =>
      rw [mem_keys_lastManualPass q l]
      simp

theorem nodup_keys_lastManualPass :
    ∀ (l : List Event) (init : QMap), (keysMap init).Nodup →
      (keysMap (lastManualPass init l)).Nodup
  | [], _, h => h
  | e :: l, init, h => by
    rw [lastManualPass_cons]
    match hk : e.kind with
    | .manualGradingResult q' p =>
      exact nodup_keys_lastManualPass l _ (nodup_keysMap_updMap q' p h)
    | .scoreAssessment p => exact nodup_keys_lastManualPass l _ h
    | .other => exact nodup_keys_lastManualPass l _ h

theorem lookup_initFold (q : ℕ) :
    ∀ (qs : List ℕ) (m0 : QMap),
      lookupMap (qs.foldl (fun m q' => updMap m q' 0) m0) q =
        if q ∈ qs then some 0 else lookupMap m0 q
  | [], m0 => by simp
  | q' :: qs, m0 => by
    rw [List.foldl_cons, lookup_initFold q qs]
    by_cases hq : q ∈ qs
    · rw [if_pos hq, if_pos (List.mem_cons_of_mem _ hq)]
    · rw [if_neg hq, lookupMap_updMap]
      by_cases he : q = q'
      · rw [if_pos he, if_pos (by rw [he]; exact List.mem_cons_self q' qs)]
      · rw [if_neg he, if_neg (by simp [he, hq])]

theorem lookup_initMap (q : ℕ) (qs : List ℕ) :
    lookupMap (initMap qs) q = if q ∈ qs then some 0 else none := by
  rw [initMap, lookup_initFold q qs]
  rfl

theorem mem_keys_initFold (q : ℕ) :
    ∀ (qs : List ℕ) (m0 : QMap),
      q ∈ keysMap (qs.foldl (fun m q' => updMap m q' 0) m0) ↔ q ∈ keysMap m0 ∨ q ∈ qs
  | [], m0 => by simp
  | q' :: qs, m0 => by
    rw [List.foldl_cons, mem_keys_initFold q qs, mem_keysMap_updMap]
    simp only [List.mem_cons]
    tauto

theorem mem_keys_initMap (q : ℕ) (qs : List ℕ) :
    q ∈ keysMap (initMap qs) ↔ q ∈ qs := by
  rw [initMap, mem_keys_initFold q qs]
  simp [keysMap]

theorem nodup_keys_initMap (qs : List ℕ) : (keysMap (initMap qs)).Nodup := by
  rw [initMap]
  have h : ∀ (qs' : List ℕ) (m0 : QMap), (keysMap m0).Nodup →
      (keysMap (qs'.foldl (fun m q' => updMap m q' 0) m0)).Nodup := by
    intro qs'
    induction qs' with
    | nil => exact fun _ h => h
    | cons q' qs' ih => exact fun m0 h => ih _ (nodup_keysMap_updMap q' 0 h)
  exact h qs [] (by simp [keysMap])

theorem mem_mgrQids_iff (q : ℕ) :
    ∀ l : List Event, q ∈ mgrQids l ↔ mgrPointsFor q l ≠ []
  | [] => by simp [mgrQids, mgrPointsFor]
  | e :: l => by
    rw [mgrQids_cons, mgrPointsFor_cons]
    match hk : e.kind with
    | .manualGradingResult q' p =>
      dsimp only
      by_cases hq : q' = q
      · simp [hq]
      · rw [if_neg hq]
        simp only [List.cons_append, List.nil_append, List.mem_cons]
        rw [mem_mgrQids_iff q l]
        exact ⟨fun h => h.elim (fun he => absurd he.symm hq) id, Or.inr⟩
    | .scoreAssessment p =>
      dsimp only
      rw [List.nil_append, List.nil_append, mem_mgrQids_iff q l]
    | .other =>
      dsimp only
      rw [List.nil_append, List.nil_append, mem_mgrQids_iff q l]

/-- The manual-score dict built by the fold sums to the spec's
`sum(current_manual_score)` over the key set. -/
theorem sumMap_lastManualPass_spec (mq : List ℕ) (p : List Event) :
    sumMap (lastManualPass (initMap mq) p) = manualSumSpec mq p := by
  have hnd : (keysMap (lastManualPass (initMap mq) p)).Nodup :=
    nodup_keys_lastManualPass p (initMap mq) (nodup_keys_initMap mq)
  rw [sumMap_eq_keys_sum _ hnd, ← List.sum_toFinset _ hnd, manualSumSpec]
  refine Finset.sum_congr ?_ ?_
  · ext x
    rw [List.mem_toFinset, mem_keys_lastManualPass x p (initMap mq), manualKeys,
      List.mem_toFinset, List.mem_append, mem_keys_initMap]
  · intro x hx
    rw [lookup_lastManualPass x p (initMap mq), lookup_initMap, curManualVal]
    cases hgl : (mgrPointsFor x p).getLast? with
    | some v => simp
    | none =>
      have hnil : mgrPointsFor x p = [] := by
        by_contra hc
        have := List.getLast?_isSome.mpr hc
        rw [hgl] at this
        exact absurd this (by simp)
      have hxmq : x ∈ mq := by
        rcases (by
          rw [manualKeys, List.mem_toFinset, List.mem_append] at hx
          exact hx : x ∈ mq ∨ x ∈ mgrQids p) with h | h
        · exact h
        · exact absurd ((mem_mgrQids_iff x p).mp h) (fun hc => hc hnil)
      rw [if_pos hxmq]
      simp

theorem lastScorePoints_append (p : List Event) (e : Event) :
    lastScorePoints (p ++ [e]) =
      match e.kind with
      | .scoreAssessment pts => pts
      | _ => lastScorePoints p := by
  rw [lastScorePoints, List.filterMap_append, List.getLast?_append]
  match hk : e.kind with
  | .scoreAssessment pts => simp [List.filterMap_cons, hk]
  | .manualGradingResult q mp => simp [List.filterMap_cons, hk, lastScorePoints]
  | .other => simp [List.filterMap_cons, hk, lastScorePoints]

theorem lastManualPass_append (init : QMap) (p : List Event) (e : Event) :
    lastManualPass init (p ++ [e]) =
      match e.kind with
      | .manualGradingResult q mp => updMap (lastManualPass init p) q mp
      | _ => lastManualPass init p := by
  rw [lastManualPass, List.foldl_append]
  match hk : e.kind with
  | .scoreAssessment pts => simp [lastManualPass, hk]
  | .manualGradingResult q mp => simp [lastManualPass, hk]
  | .other => simp [lastManualPass, hk]

/-- The replay's candidate sequence equals the spec-side candidate
sequence: at every scoring event the emitted normalized total is
`current_total − sum(current_manual_score) + sum(last_manual_score)`
with the current values given by last-write-wins over the processed
prefix. -/
theorem replayCands_eq_spec (mq : List ℕ) (whole : List Event) :
    ∀ (rest p : List Event) (st : ScanState),
      st.cur_total_score = lastScorePoints p →
      st.cur_manual_score = lastManualPass (initMap mq) p →
      replayCands (lastManualPass (initMap mq) whole) st rest =
        candidatesSpecAux mq whole p rest
  | [], _, _, _, _ => rfl
  | e :: rest, p, st, ht, hm => by
    match hk : e.kind with
    | .scoreAssessment pts =>
      have hisc : isScoring e = true := by simp [isScoring, hk]
      have hlsp : lastScorePoints (p ++ [e]) = pts := by
        rw [lastScorePoints_append, hk]
      have hlmp : lastManualPass (initMap mq) (p ++ [e]) = lastManualPass (initMap mq) p := by
        rw [lastManualPass_append, hk]
      simp only [replayCands, hk, candidatesSpecAux, hisc, if_true]
      refine congrArg₂ List.cons (congrArg₂ Prod.mk rfl ?_) ?_
      · have hms : manualSumSpec mq (p ++ [e]) = manualSumSpec mq p := by
          rw [← sumMap_lastManualPass_spec mq (p ++ [e]), hlmp, sumMap_lastManualPass_spec]
        rw [hm, sumMap_lastManualPass_spec, sumMap_lastManualPass_spec, normTotalSpec,
          hlsp, hms]
      · exact replayCands_eq_spec mq whole rest (p ++ [e]) _ (by rw [hlsp]) (by rw [hlmp]; exact hm)
    | .manualGradingResult q mp =>
      have hisc : isScoring e = true := by simp [isScoring, hk]
      have hlsp : lastScorePoints (p ++ [e]) = lastScorePoints p := by
        rw [lastScorePoints_append, hk]
      have hlmp : lastManualPass (initMap mq) (p ++ [e])
          = updMap (lastManualPass (initMap mq) p) q mp := by
        rw [lastManualPass_append, hk]
      simp only [replayCands, hk, candidatesSpecAux, hisc, if_true]
      refine congrArg₂ List.cons (congrArg₂ Prod.mk rfl ?_) ?_
      · have hms : manualSumSpec mq (p ++ [e])
            = sumMap (updMap (lastManualPass (initMap mq) p) q mp) := by
          rw [← sumMap_lastManualPass_spec mq (p ++ [e]), hlmp]
        rw [ht, hm, sumMap_lastManualPass_spec, normTotalSpec, hlsp, hms]
      · exact replayCands_eq_spec mq whole rest (p ++ [e]) _ (by rw [hlsp]; exact ht)
          (by rw [hlmp, hm])
    | .other =>
      have hisc : isScoring e = false := by simp [isScoring, hk]
      have hlsp : lastScorePoints (p ++ [e]) = lastScorePoints p := by
        rw [lastScorePoints_append, hk]
      have hlmp : lastManualPass (initMap mq) (p ++ [e]) = lastManualPass (initMap mq) p := by
        rw [lastManualPass_append, hk]
      simp only [replayCands, hk, candidatesSpecAux, hisc, if_false, Bool.false_eq_true]
      exact replayCands_eq_spec mq whole rest (p ++ [e]) _ (by rw [hlsp]; exact ht)
        (by rw [hlmp]; exact hm)

/-- C3: under the whole-assessment policy `last_manual_score` maps every
manually-graded question to the manual points of the last
`Manual grading results` event for that question over the entire
(time-sorted) log — no time-window filter — and 0 if there is none; and
the candidate score emitted at each scoring event of the replay equals
current_total − sum(current_manual_score) + sum(last_manual_score), the
current values being the last-write-wins state over the processed
prefix. -/
theorem scan_manual_normalization (questions : List Question) (logs : List Event) :
    (∀ q ∈ manualNames questions,
      lookupMap (lastManualPass (initMap (manualNames questions)) (sortLogs logs)) q =
        some ((mgrPointsFor q (sortLogs logs)).getLast?.getD 0))
  ∧ scanCands questions logs = candidatesSpec (manualNames questions) (sortLogs logs) := by
  constructor
  · intro q hq
    rw [lookup_lastManualPass q (sortLogs logs) (initMap (manualNames questions)),
      lookup_initMap, if_pos hq, or_some_right]
  · rw [scanCands, candidatesSpec]
    exact replayCands_eq_spec (manualNames questions) (sortLogs logs) (sortLogs logs) []
      ⟨0, initMap (manualNames questions)⟩ rfl rfl

/-- Witness for C3 at the concrete scenario: `last_manual_score[q1]` is
the manual points of q1's last manual-grading event. -/
theorem scan_manual_normalization_witness :
    lookupMap (lastManualPass (initMap (manualNames [hw1])) (sortLogs [sa1, mg5, mg8])) 1 =
      some ((mgrPointsFor 1 (sortLogs [sa1, mg5, mg8])).getLast?.getD 0) :=
  (scan_manual_normalization [hw1] [sa1, mg5, mg8]).1 1 (by norm_num [manualNames, hw1])
